import Mathlib

/-!
Verification of the web_modal dialog manager
(`components/web_modal/web_contents_modal_dialog_manager.cc`) and of the
language-detection utilities
(`chrome/common/translate/language_detection_util.cc`).

Modelling conventions:
* C++ `std::string` is a byte sequence; we model it as `List Nat` of ASCII
  byte values (e.g. `[101, 110]` is `"en"`).
* `NativeWebContentsModalDialog` is an opaque handle compared only by
  identity; we model it as `Nat`.
* Calls to the platform adapter (`NativeWebContentsModalDialogManager`) and
  to the host-blocking path (`BlockWebContentsInteraction`, which sets
  `SetIgnoreInputEvents`/`SetWebContentsBlocked`) are recorded as an event
  trace, in call order.
-/

/-- One entry of `child_dialogs_`: `DialogState` from the source, with the
`dialog` handle and the `prevent_close_on_load_start` flag (initially
false). -/
structure DialogState where
  dialog : Nat
  prevent_close_on_load_start : Bool
deriving DecidableEq, Repr

/-- The manager state: the `child_dialogs_` list (front = first element)
and the `closing_all_dialogs_` re-entrancy guard. -/
structure ManagerState where
  child_dialogs : List DialogState
  closing_all_dialogs : Bool
deriving DecidableEq, Repr

/-- Observable side effects: the four adapter primitives
(`ManageDialog`, `ShowDialog`, `HideDialog`, `CloseDialog`, `FocusDialog`)
plus `setBlocked b` for `BlockWebContentsInteraction(b)` (which forwards
`b` to `SetIgnoreInputEvents` and `SetWebContentsBlocked`). -/
inductive Event where
  | manageDialog (d : Nat)
  | showDialog (d : Nat)
  | hideDialog (d : Nat)
  | closeDialog (d : Nat)
  | focusDialog (d : Nat)
  | setBlocked (b : Bool)
deriving DecidableEq, Repr

/-- Handle of `child_dialogs_.front()`; only consulted on a non-empty
list (default 0 otherwise). -/
def frontDialog : List DialogState → Nat
  | [] => 0
  | e :: _ => e.dialog

/-- `WebContentsModalDialogManager::ShowDialog` (lines 27-38): push the new
entry at the back, call `ManageDialog`, and if the stack became size 1,
show it (only when the delegate reports the web contents visible; `visible`
models `delegate_ && delegate_->IsWebContentsVisible(web_contents())`) and
block interaction. -/
def ShowDialog (visible : Bool) (st : ManagerState) (d : Nat) :
    ManagerState × List Event :=
  let dialogs := st.child_dialogs ++ [⟨d, false⟩]
  let st' : ManagerState := ⟨dialogs, st.closing_all_dialogs⟩
  if dialogs.length = 1 then
    (st', [Event.manageDialog d] ++
          (if visible then [Event.showDialog d] else []) ++
          [Event.setBlocked true])
  else
    (st', [Event.manageDialog d])

/-- `WebContentsModalDialogManager::IsShowingDialog` (lines 40-42). -/
def IsShowingDialog (st : ManagerState) : Bool :=
  !st.child_dialogs.isEmpty

/-- `FindDialogState` (lines 122-132): index of the first entry whose
handle equals `d`; equals `child_dialogs.length` when absent (the `end()`
iterator). -/
def FindDialogState (l : List DialogState) (d : Nat) : Nat :=
  l.findIdx (fun e => e.dialog == d)

/-- `WebContentsModalDialogManager::SetPreventCloseOnLoadStart`
(lines 49-55): locates the entry; the source then `DCHECK`s presence and
assigns `loc->prevent_close_on_load_start = true` — note: `true`, not the
`prevent` argument, which is never read. When the handle is absent the
`DCHECK` fails and the assignment dereferences the `end()` iterator; we
model that failure as `none`. -/
def SetPreventCloseOnLoadStart (st : ManagerState) (d : Nat)
    (prevent : Bool) : Option ManagerState :=
  let i := FindDialogState st.child_dialogs d
  match st.child_dialogs.get? i with
  | some e => some ⟨st.child_dialogs.set i ⟨e.dialog, true⟩,
                    st.closing_all_dialogs⟩
  | none => none

/-- `WebContentsModalDialogManager::WillClose` (lines 61-77): if the handle
is absent, return (duplicate close notification); otherwise erase the
entry, show the new front if the topmost one was removed (and the stack is
still non-empty and we are not in `CloseAllDialogs`), then re-block
interaction with `!child_dialogs_.empty()`. -/
def WillClose (st : ManagerState) (d : Nat) : ManagerState × List Event :=
  let i := FindDialogState st.child_dialogs d
  if i < st.child_dialogs.length then
    let dialogs := st.child_dialogs.eraseIdx i
    let evs := if dialogs ≠ [] ∧ i = 0 ∧ st.closing_all_dialogs = false
               then [Event.showDialog (frontDialog dialogs)] else []
    (⟨dialogs, st.closing_all_dialogs⟩,
     evs ++ [Event.setBlocked (!dialogs.isEmpty)])
  else
    (st, [])

/-- The `while (!child_dialogs_.empty()) CloseDialog(front)` loop of
`CloseAllDialogs` (lines 149-157), run with `closing_all_dialogs_ = b`,
under the assumption (claim C5) that each adapter `CloseDialog` request
synchronously delivers the matching `WillClose` event. After
`WillClose ⟨e :: rest, b⟩ e.dialog` the remaining list is exactly `rest`
(theorem `WillClose_front_state` below), so the loop recurses on `rest`. -/
def closeAllLoop (b : Bool) : List DialogState → List Event
  | [] => []
  | e :: rest =>
      Event.closeDialog e.dialog ::
        ((WillClose ⟨e :: rest, b⟩ e.dialog).2 ++ closeAllLoop b rest)

/-- `WebContentsModalDialogManager::CloseAllDialogs` (lines 149-157): set
the `closing_all_dialogs_` guard, close the front dialog until the list is
empty, clear the guard. -/
def CloseAllDialogs (st : ManagerState) : ManagerState × List Event :=
  (⟨[], false⟩, closeAllLoop true st.child_dialogs)

/-!
Language-detection utilities. Strings are ASCII byte lists; `strBytes`
converts a Lean string literal for concrete inputs. Relevant byte values:
9-13 and 32 are the `kWhitespaceASCII` characters, 44 is `','`, 45 is
`'-'`, 95 is `'_'`, 65-90 are `'A'`-`'Z'`, 97-122 are `'a'`-`'z'`.
-/

/-- Byte values of a string literal (for concrete test inputs). -/
def strBytes (s : String) : List Nat := s.data.map Char.toNat

/-- Membership of a byte in `kWhitespaceASCII` (`base::TrimWhitespaceASCII`
trims `" \t\n\v\f\r"`). -/
def isWS (a : Nat) : Bool :=
  decide (a = 32 ∨ a = 9 ∨ a = 10 ∨ a = 11 ∨ a = 12 ∨ a = 13)

/-- `StringToLowerASCII` on one byte. -/
def toLowerByte (a : Nat) : Nat := if 65 ≤ a ∧ a ≤ 90 then a + 32 else a

/-- `StringToUpperASCII` on one byte. -/
def toUpperByte (a : Nat) : Nat := if 97 ≤ a ∧ a ≤ 122 then a - 32 else a

/-- `IsAsciiAlpha` on one byte. -/
def IsAsciiAlpha (a : Nat) : Bool :=
  decide ((65 ≤ a ∧ a ≤ 90) ∨ (97 ≤ a ∧ a ≤ 122))

/-- `code->substr(0, code->find(','))` when a comma is present, the whole
string otherwise: everything before the first comma. -/
def truncateAtComma (l : List Nat) : List Nat := l.takeWhile (fun a => a != 44)

/-- `TrimWhitespaceASCII(*code, TRIM_ALL, code)`: drop whitespace from both
ends. -/
def trimAll (l : List Nat) : List Nat :=
  (l.dropWhile isWS).rdropWhile isWS

/-- `(*code)[underscore_index] = '-'` at `code->find('_')`: replace the
first underscore (if any) with a hyphen. -/
def replaceFirstUnderscore : List Nat → List Nat
  | [] => []
  | a :: t => if a = 95 then 45 :: t else a :: replaceFirstUnderscore t

/-- The dash-case step of `CorrectLanguageCodeTypo` (lines 218-225):
lower-case everything strictly before the first `'-'` and upper-case
everything from the first `'-'` onward (`StringToLowerASCII(substr(0, i)) +
StringToUpperASCII(substr(i))`); if there is no dash, lower-case the whole
string. Written as a single scan over the bytes. -/
def dashCaseFix : List Nat → List Nat
  | [] => []
  | a :: t => if a = 45 then (a :: t).map toUpperByte
              else toLowerByte a :: dashCaseFix t

/-- `LanguageDetectionUtil::CorrectLanguageCodeTypo` (lines 203-226):
comma-truncate, trim, underscore-to-hyphen, dash-case fix, in source
order. -/
def CorrectLanguageCodeTypo (l : List Nat) : List Nat :=
  dashCaseFix (replaceFirstUnderscore (trimAll (truncateAtComma l)))

/-- The piece list of `base::SplitString`'s scan: split at every `sep`,
producing `count sep + 1` raw (untrimmed) pieces. -/
def splitRaw (sep : Nat) : List Nat → List (List Nat)
  | [] => [[]]
  | a :: t =>
      if a = sep then [] :: splitRaw sep t
      else
        match splitRaw sep t with
        | [] => [[a]]
        | p :: ps => (a :: p) :: ps

/-- `base::SplitString(code, '-', &chunks)` (2013 `SplitStringT` with
`trim_whitespace = true`): each piece is whitespace-trimmed, and a single
all-whitespace piece with no separator yields an empty vector. -/
def SplitString (sep : Nat) (l : List Nat) : List (List Nat) :=
  match (splitRaw sep l).map trimAll with
  | [p] => if p = [] then [] else [p]
  | ps => ps

/-- `LanguageDetectionUtil::IsValidLanguageCode` (lines 228-263): split on
`'-'` into at most two chunks; the main code is 1-3 ASCII letters; the sub
code, when present, is exactly 2 ASCII letters. -/
def IsValidLanguageCode (l : List Nat) : Bool :=
  let chunks := SplitString 45 l
  if chunks.length < 1 ∨ 2 < chunks.length then false
  else
    let main_code := chunks.headD []
    if main_code.length < 1 ∨ 3 < main_code.length then false
    else if ¬ main_code.all IsAsciiAlpha then false
    else if chunks.length = 1 then true
    else
      let sub_code := chunks.getD 1 []
      if sub_code.length ≠ 2 then false
      else sub_code.all IsAsciiAlpha

/-- `ApplyLanguageCodeCorrection` (lines 55-65): typo correction, then the
validity check (an invalid code becomes empty), then the
`TranslateUtil::ToTranslateLanguageSynonym` table.  The synonym table lives
in `translate_util.cc`, outside this excerpt; it is injected as the
function `syn` (spec §9: fixed collaborator tables are injected
configuration). -/
def ApplyLanguageCodeCorrection (syn : List Nat → List Nat)
    (l : List Nat) : List Nat :=
  let c := CorrectLanguageCodeTypo l
  if IsValidLanguageCode c then syn c else []

/-- The `normalize` operation of the claims: typo correction followed by
validation, with no synonym lookup (`syn = id`). -/
def normalizeCode (l : List Nat) : List Nat := ApplyLanguageCodeCorrection id l

/-- `chrome::kUnknownLanguageCode = "und"`. -/
def und : List Nat := [117, 110, 100]

/-- `DetermineTextLanguage` (lines 71-102) with CLD as an opaque oracle:
`detected` is `none` when CLD reports `NUM_LANGUAGES`/`UNKNOWN_LANGUAGE`/
`TG_UNKNOWN_LANGUAGE`, and otherwise `some` of the
`LanguageCodeWithDialects` rendering of the detected language; the result
is kept only when the detection is reliable and at least 100 bytes of text
were examined, and collapses to `"und"` otherwise. -/
def DetermineTextLanguage (detected : Option (List Nat))
    (is_reliable : Bool) (text_bytes : Nat) : List Nat :=
  match detected with
  | some lang => if is_reliable ∧ 100 ≤ text_bytes then lang else und
  | none => und

/-- `l.take p.length = p`: `p` is a prefix of `l` (`std::string::find(p) == 0`,
case-sensitive). -/
def startsWith (p l : List Nat) : Bool := decide (l.take p.length = p)

/-- `StartsWithASCII(l, search, false)`: case-insensitive prefix test
(`strncasecmp` over `search.length()` bytes). -/
def startsWithCaseInsensitive (l search : List Nat) : Bool :=
  decide ((l.take search.length).map toLowerByte = search.map toLowerByte)

/-- `GetSimilarLanguageGroupCode` (lines 37-44) over `kSimilarLanguageCodes`
(lines 29-34): the group of the first table entry (`"bs"`→1, `"hr"`→1,
`"hi"`→2, `"ne"`→2) whose code is a prefix of `language`
(`language.find(code) != 0` skips, i.e. a match is `find == 0`), else 0. -/
def GetSimilarLanguageGroupCode (language : List Nat) : Nat :=
  if startsWith [98, 115] language then 1
  else if startsWith [104, 114] language then 1
  else if startsWith [104, 105] language then 2
  else if startsWith [110, 101] language then 2
  else 0

/-- `LanguageDetectionUtil::IsSameOrSimilarLanguages` (lines 265-285):
either the first two bytes of `page_language` are a prefix of
`cld_language` (`cld_language.find(page_language.c_str(), 0, 2) == 0`,
guarded by `page_language.size() >= 2`), or both belong to the same
nonzero similar-language group. -/
def IsSameOrSimilarLanguages (page_language cld_language : List Nat) : Bool :=
  if 2 ≤ page_language.length ∧
     startsWith (page_language.take 2) cld_language then true
  else
    let page_code := GetSimilarLanguageGroupCode page_language
    decide (page_code ≠ 0 ∧
            page_code = GetSimilarLanguageGroupCode cld_language)

/-- `kWellKnownCodesOnWrongConfiguration` (lines 50-52): es, pt, ja, ru,
de, zh-CN, zh-TW, ar, id, fr, it, th. -/
def kWellKnownCodesOnWrongConfiguration : List (List Nat) :=
  [[101, 115], [112, 116], [106, 97], [114, 117], [100, 101],
   [122, 104, 45, 67, 78], [122, 104, 45, 84, 87],
   [97, 114], [105, 100], [102, 114], [105, 116], [116, 104]]

/-- `LanguageDetectionUtil::MaybeServerWrongConfiguration` (lines 287-303):
false unless `page_language` starts with `"en"` case-insensitively, in
which case test membership of `cld_language` in the well-known table. -/
def MaybeServerWrongConfiguration (page_language cld_language : List Nat) :
    Bool :=
  if ¬ startsWithCaseInsensitive page_language [101, 110] then false
  else decide (cld_language ∈ kWellKnownCodesOnWrongConfiguration)

/-- `CanCLDComplementSubCode` (lines 107-114): `page_language == "zh"` and
`cld_language` starts with `"zh-"` (case-insensitive). -/
def CanCLDComplementSubCode (page_language cld_language : List Nat) : Bool :=
  decide (page_language = [122, 104]) &&
    startsWithCaseInsensitive cld_language [122, 104, 45]

/-- The verification outcome reported by `DeterminePageLanguage` to
`ReportLanguageVerification` (`LANGUAGE_VERIFICATION_*`). -/
inductive LanguageVerification where
  | cldOnly
  | unknown
  | cldComplementSubCode
  | cldAgree
  | trustCld
  | cldDisagree
  | cldDisabled
deriving DecidableEq, Repr

/-- The `language` local of `DeterminePageLanguage` (lines 139-159): the
corrected html attribute if non-empty, else the corrected Content-Language
header (each corrected only when the raw input is non-empty). -/
def adoptedLanguage (syn : List Nat → List Nat)
    (code html_lang : List Nat) : List Nat :=
  let modified_html_lang :=
    if html_lang = [] then [] else ApplyLanguageCodeCorrection syn html_lang
  let modified_code :=
    if code = [] then [] else ApplyLanguageCodeCorrection syn code
  if modified_html_lang = [] then modified_code else modified_html_lang

/-- `LanguageDetectionUtil::DeterminePageLanguage` (lines 120-201), with
`ENABLE_LANGUAGE_DETECTION` on and the CLD verdict passed as oracle inputs
(`detected`, `is_reliable`, `text_bytes`); returns the final code paired
with the reported verification outcome. `syn` is the injected
`ToTranslateLanguageSynonym` table, applied to the CLD code (line 136) and
inside each code correction. -/
def DeterminePageLanguage (syn : List Nat → List Nat)
    (code html_lang : List Nat) (detected : Option (List Nat))
    (is_reliable : Bool) (text_bytes : Nat) :
    List Nat × LanguageVerification :=
  let cld_language := syn (DetermineTextLanguage detected is_reliable text_bytes)
  let language := adoptedLanguage syn code html_lang
  if language = [] then (cld_language, LanguageVerification.cldOnly)
  else if cld_language = und then (language, LanguageVerification.unknown)
  else if CanCLDComplementSubCode language cld_language then
    (cld_language, LanguageVerification.cldComplementSubCode)
  else if IsSameOrSimilarLanguages language cld_language then
    (language, LanguageVerification.cldAgree)
  else if MaybeServerWrongConfiguration language cld_language then
    (cld_language, LanguageVerification.trustCld)
  else (und, LanguageVerification.cldDisagree)

/-- The two ends of a byte list carry no whitespace. -/
def noWSEnds (l : List Nat) : Prop :=
  (∀ a ∈ l.head?, isWS a = false) ∧
  (∀ a ∈ l.reverse.head?, isWS a = false)

/-- Modelled from the claim's wording (C9), for comparison against the
source's `GetSimilarLanguageGroupCode`: the grouping table maps exactly
the codes `bs`, `hr` to 1 and `hi`, `ne` to 2 — an exact-key lookup of a
primary tag, not a prefix match. -/
def specSimilarGroup (t : List Nat) : Nat :=
  if t = [98, 115] then 1
  else if t = [104, 114] then 1
  else if t = [104, 105] then 2
  else if t = [110, 101] then 2
  else 0

/-- Modelled from the claim's wording (C9): the first two characters of
the declared code match the first two of the classifier code, or both
codes' primary tags (the part before a dash) map to the same nonzero
entry of the grouping table. -/
def specSameOrSimilarLanguages (page_language cld_language : List Nat) :
    Bool :=
  decide ((2 ≤ page_language.length ∧ 2 ≤ cld_language.length ∧
      page_language.take 2 = cld_language.take 2) ∨
    (specSimilarGroup (page_language.takeWhile (fun a => a != 45)) ≠ 0 ∧
     specSimilarGroup (page_language.takeWhile (fun a => a != 45)) =
       specSimilarGroup (cld_language.takeWhile (fun a => a != 45))))

theorem WillClose_front_state (e : DialogState) (rest : List DialogState)
    (b : Bool) : (WillClose ⟨e :: rest, b⟩ e.dialog).1 = ⟨rest, b⟩ := by
  simp [WillClose, FindDialogState, List.findIdx_cons]

/-- Spec §8 test vectors for `normalize`. -/
theorem normalizeCode_vectors :
    normalizeCode (strBytes "en_us") = strBytes "en-US" ∧
    normalizeCode (strBytes "EN") = strBytes "en" ∧
    normalizeCode (strBytes "toolong1234") = [] ∧
    normalizeCode (strBytes "fr,en;q=0.5") = strBytes "fr" := by decide

/-- Spec §8 test vector: the `zh` sub-code complement resolution. -/
theorem determinePageLanguage_zh_complement :
    DeterminePageLanguage id (strBytes "zh") []
        (some (strBytes "zh-CN")) true 150 =
      (strBytes "zh-CN", LanguageVerification.cldComplementSubCode) := by
  decide

/-! Helper lemmas about `List.findIdx`. -/

theorem findIdx_eq_length_of_none {α} (p : α → Bool) (l : List α)
    (h : ∀ a ∈ l, p a = false) : l.findIdx p = l.length := by
  induction l with
  | nil => rfl
  | cons a t ih =>
      rw [List.findIdx_cons, h a (by simp), cond_false, List.length_cons,
          ih fun x hx => h x (by simp [hx])]

theorem findIdx_lt_length_of_mem {α} (p : α → Bool) (l : List α)
    (h : ∃ a ∈ l, p a = true) : l.findIdx p < l.length := by
  induction l with
  | nil => simp at h
  | cons a t ih =>
      rw [List.findIdx_cons]
      cases hpa : p a with
      | true => simp
      | false =>
          have ht : ∃ x ∈ t, p x = true := by
            obtain ⟨x, hx, hpx⟩ := h
            rcases List.mem_cons.mp hx with h1 | h2
            · subst h1; rw [hpa] at hpx; cases hpx
            · exact ⟨x, h2, hpx⟩
          simpa [Nat.succ_lt_succ_iff] using ih ht

/-- Events of `WillClose` on the front dialog while `closing_all_dialogs_`
is set: the show-next-dialog side effect is suppressed and only the
re-block call remains. -/
theorem WillClose_front_events_closing (e : DialogState)
    (rest : List DialogState) :
    (WillClose ⟨e :: rest, true⟩ e.dialog).2 =
      [Event.setBlocked (!rest.isEmpty)] := by
  simp [WillClose, FindDialogState, List.findIdx_cons]

theorem closeAllLoop_cons (e : DialogState) (rest : List DialogState) :
    closeAllLoop true (e :: rest) =
      Event.closeDialog e.dialog :: Event.setBlocked (!rest.isEmpty) ::
        closeAllLoop true rest := by
  simp [closeAllLoop, WillClose_front_events_closing]

theorem closeAllLoop_no_show (l : List DialogState) (d : Nat) :
    Event.showDialog d ∉ closeAllLoop true l := by
  induction l with
  | nil => simp [closeAllLoop]
  | cons e rest ih => rw [closeAllLoop_cons]; simp [ih]

theorem closeAllLoop_unblock_once (l : List DialogState) (h : l ≠ []) :
    (closeAllLoop true l).countP (fun ev => ev == Event.setBlocked false)
      = 1 := by
  induction l with
  | nil => exact absurd rfl h
  | cons e rest ih =>
      rw [closeAllLoop_cons]
      cases rest with
      | nil => rfl
      | cons f rest' =>
          rw [List.countP_cons, List.countP_cons, ih (by simp)]
          rfl

/-- C1: the claim says that after `setPreventAutoClose(h, prevent)` the
entry's flag equals `prevent`, so `prevent = false` must leave the flag
false.  The source (line 54) assigns `prevent_close_on_load_start = true`
unconditionally and never reads `prevent`: on a stack holding handle 1
with the flag false, passing `prevent = false` sets the flag to true. -/
theorem setPreventCloseOnLoadStart_sets_true_c1 :
    SetPreventCloseOnLoadStart ⟨[⟨1, false⟩], false⟩ 1 false =
      some ⟨[⟨1, true⟩], false⟩ := by decide

/-- C2 counterexample: `show` on a handle already present is not a no-op.
From the empty stack, `show 1` puts handle 1 on the stack; a second
`show 1` appends a second entry with the same handle (and still calls the
adapter's `ManageDialog`), so the stack changes and the no-duplicates
invariant is violated. -/
theorem showDialog_duplicate_appends_c2 :
    ShowDialog true ⟨[], false⟩ 1 =
      (⟨[⟨1, false⟩], false⟩,
       [Event.manageDialog 1, Event.showDialog 1, Event.setBlocked true]) ∧
    ShowDialog true ⟨[⟨1, false⟩], false⟩ 1 =
      (⟨[⟨1, false⟩, ⟨1, false⟩], false⟩, [Event.manageDialog 1]) ∧
    (⟨[⟨1, false⟩, ⟨1, false⟩], false⟩ : ManagerState) ≠
      ⟨[⟨1, false⟩], false⟩ := by decide

/-- C2 amended: `show(h)` unconditionally appends a fresh entry for `h` at
the back — also when `h` is already present — so the stack can contain two
entries with the same handle. -/
theorem showDialog_always_appends_c2 (visible : Bool) (st : ManagerState)
    (d : Nat) :
    (ShowDialog visible st d).1 =
      ⟨st.child_dialogs ++ [⟨d, false⟩], st.closing_all_dialogs⟩ := by
  unfold ShowDialog
  dsimp only
  split <;> rfl

/-- C3 counterexample: on an absent handle `willClose` is indeed a no-op,
but `setPreventAutoClose` is not a tolerated anomaly: the source `DCHECK`s
presence and then writes through the `end()` iterator (modelled as
`none`), rather than terminating normally with the state unchanged. -/
theorem setPrevent_absent_not_normal_c3 :
    SetPreventCloseOnLoadStart ⟨[], false⟩ 1 false = none := by decide

/-- C3 amended: for a handle not present in the stack, `WillClose` returns
early with no state change and no adapter or blocking call, while
`SetPreventCloseOnLoadStart` fails its `DCHECK` and dereferences the
`end()` iterator (`none` in the model) instead of terminating normally. -/
theorem absent_handle_behavior_c3 (st : ManagerState) (d : Nat)
    (prevent : Bool) (h : ∀ e ∈ st.child_dialogs, e.dialog ≠ d) :
    WillClose st d = (st, []) ∧
    SetPreventCloseOnLoadStart st d prevent = none := by
  have hf : FindDialogState st.child_dialogs d = st.child_dialogs.length :=
    findIdx_eq_length_of_none _ _ (fun a ha => by simp [h a ha])
  constructor
  · unfold WillClose
    rw [hf]
    simp
  · simp only [SetPreventCloseOnLoadStart, hf]
    rw [List.get?_eq_none.mpr (le_refl _)]

theorem absent_handle_behavior_c3_witness :
    (∀ e ∈ ([⟨1, false⟩] : List DialogState), e.dialog ≠ 2) ∧
    (WillClose ⟨[⟨1, false⟩], false⟩ 2 = (⟨[⟨1, false⟩], false⟩, []) ∧
     SetPreventCloseOnLoadStart ⟨[⟨1, false⟩], false⟩ 2 true = none) :=
  ⟨by decide, absent_handle_behavior_c3 ⟨[⟨1, false⟩], false⟩ 2 true
    (by decide)⟩

/-- C4: from the empty stack with a visible host, `show 1; show 2` issues
an adapter show only for dialog 1 (dialog 2 is queued with only a
`ManageDialog` call) and blocks input; `isShowingDialog` is then true;
`willClose 1` removes dialog 1 and shows dialog 2; `willClose 2` leaves
the stack empty and unblocks the host (`setBlocked false`). -/
theorem show_show_close_close_trace_c4 :
    ShowDialog true ⟨[], false⟩ 1 =
      (⟨[⟨1, false⟩], false⟩,
       [Event.manageDialog 1, Event.showDialog 1, Event.setBlocked true]) ∧
    ShowDialog true ⟨[⟨1, false⟩], false⟩ 2 =
      (⟨[⟨1, false⟩, ⟨2, false⟩], false⟩, [Event.manageDialog 2]) ∧
    IsShowingDialog ⟨[⟨1, false⟩, ⟨2, false⟩], false⟩ = true ∧
    WillClose ⟨[⟨1, false⟩, ⟨2, false⟩], false⟩ 1 =
      (⟨[⟨2, false⟩], false⟩,
       [Event.showDialog 2, Event.setBlocked true]) ∧
    WillClose ⟨[⟨2, false⟩], false⟩ 2 =
      (⟨[], false⟩, [Event.setBlocked false]) := by decide

/-- C5: `closeAll` on any non-empty stack — with each adapter close
request synchronously delivering its `willClose` — empties the stack,
never issues an adapter show for a successor dialog (the
`closing_all_dialogs_` guard suppresses it), and performs exactly one
unblock call `setBlocked false`. -/
theorem closeAllDialogs_spec_c5 (st : ManagerState)
    (h : st.child_dialogs ≠ []) :
    (CloseAllDialogs st).1.child_dialogs = [] ∧
    (∀ d, Event.showDialog d ∉ (CloseAllDialogs st).2) ∧
    (CloseAllDialogs st).2.countP (fun ev => ev == Event.setBlocked false)
      = 1 :=
  ⟨rfl, fun d => closeAllLoop_no_show st.child_dialogs d,
    closeAllLoop_unblock_once st.child_dialogs h⟩

theorem closeAllDialogs_spec_c5_witness :
    (⟨[⟨1, false⟩, ⟨2, false⟩, ⟨3, false⟩], false⟩ :
        ManagerState).child_dialogs ≠ [] ∧
    ((CloseAllDialogs ⟨[⟨1, false⟩, ⟨2, false⟩, ⟨3, false⟩], false⟩).1.child_dialogs = [] ∧
     (∀ d, Event.showDialog d ∉
        (CloseAllDialogs ⟨[⟨1, false⟩, ⟨2, false⟩, ⟨3, false⟩], false⟩).2) ∧
     (CloseAllDialogs ⟨[⟨1, false⟩, ⟨2, false⟩, ⟨3, false⟩], false⟩).2.countP
        (fun ev => ev == Event.setBlocked false) = 1) :=
  ⟨by decide, closeAllDialogs_spec_c5 ⟨[⟨1, false⟩, ⟨2, false⟩, ⟨3, false⟩],
    false⟩ (by decide)⟩

/-- C10: closing a dialog that is present but not the front entry removes
exactly the first entry carrying that handle, issues no adapter show,
hide, close or focus call, leaves the front entry and the relative order
of the remaining entries unchanged, keeps the guard flag, and re-asserts
that the host input is blocked (`setBlocked true` is the only call). -/
theorem willClose_nonfront_c10 (f : DialogState) (rest : List DialogState)
    (b : Bool) (d : Nat) (hne : f.dialog ≠ d)
    (hmem : ∃ e ∈ rest, e.dialog = d) :
    WillClose ⟨f :: rest, b⟩ d =
      (⟨f :: rest.eraseIdx (FindDialogState rest d), b⟩,
       [Event.setBlocked true]) := by
  have hlt : FindDialogState rest d < rest.length := by
    refine findIdx_lt_length_of_mem _ _ ?_
    obtain ⟨e, he, hd⟩ := hmem
    exact ⟨e, he, by simp [hd]⟩
  have hne' : (f.dialog == d) = false := by simp [hne]
  have hlt2 : rest.findIdx (fun e => e.dialog == d) + 1 <
      (f :: rest).length := by
    simp only [List.length_cons]
    exact Nat.succ_lt_succ hlt
  unfold WillClose FindDialogState
  rw [List.findIdx_cons, hne', cond_false]
  rw [if_pos hlt2]
  simp [FindDialogState, List.eraseIdx_cons_succ]

theorem willClose_nonfront_c10_witness :
    ((⟨1, false⟩ : DialogState).dialog ≠ 2) ∧
    (∃ e ∈ ([⟨2, false⟩] : List DialogState), e.dialog = 2) ∧
    WillClose ⟨[⟨1, false⟩, ⟨2, false⟩], false⟩ 2 =
      (⟨[⟨1, false⟩], false⟩, [Event.setBlocked true]) := by
  refine ⟨by decide, by decide, ?_⟩
  rw [willClose_nonfront_c10 ⟨1, false⟩ [⟨2, false⟩] false 2 (by decide)
    ⟨⟨2, false⟩, by decide, rfl⟩]
  decide

/-! Byte-level facts about case mapping, whitespace and the special
bytes 44 (comma), 45 (dash), 95 (underscore). -/

theorem toLowerByte_idem (a : Nat) :
    toLowerByte (toLowerByte a) = toLowerByte a := by
  unfold toLowerByte
  by_cases h : 65 ≤ a ∧ a ≤ 90
  · rw [if_pos h, if_neg (by omega)]
  · rw [if_neg h, if_neg h]

theorem toUpperByte_idem (a : Nat) :
    toUpperByte (toUpperByte a) = toUpperByte a := by
  unfold toUpperByte
  by_cases h : 97 ≤ a ∧ a ≤ 122
  · rw [if_pos h, if_neg (by omega)]
  · rw [if_neg h, if_neg h]

theorem toLowerByte_not_upper (a : Nat) :
    ¬ (65 ≤ toLowerByte a ∧ toLowerByte a ≤ 90) := by
  unfold toLowerByte
  split <;> omega

theorem toUpperByte_not_lower (a : Nat) :
    ¬ (97 ≤ toUpperByte a ∧ toUpperByte a ≤ 122) := by
  unfold toUpperByte
  split <;> omega

theorem isWS_toLowerByte (a : Nat) : isWS (toLowerByte a) = isWS a := by
  unfold toLowerByte isWS
  split
  · rw [decide_eq_decide]
    omega
  · rfl

theorem isWS_toUpperByte (a : Nat) : isWS (toUpperByte a) = isWS a := by
  unfold toUpperByte isWS
  split
  · rw [decide_eq_decide]
    omega
  · rfl

theorem toLowerByte_eq_iff (a t : Nat) (h1 : ¬ (97 ≤ t ∧ t ≤ 122))
    (h2 : ¬ (65 ≤ t ∧ t ≤ 90)) : toLowerByte a = t ↔ a = t := by
  unfold toLowerByte
  split <;> omega

theorem toUpperByte_eq_iff (a t : Nat) (h1 : ¬ (65 ≤ t ∧ t ≤ 90))
    (h2 : ¬ (97 ≤ t ∧ t ≤ 122)) : toUpperByte a = t ↔ a = t := by
  unfold toUpperByte
  split <;> omega

/-! Generic list scaffolding: membership and end-stability of
`dropWhile`/`trimAll`, and `map isWS`-shape transfer. -/

theorem mem_dropWhile_or {α} (p : α → Bool) {l : List α} {a : α}
    (h : a ∈ l) : a ∈ l.dropWhile p ∨ p a = true := by
  induction l with
  | nil => cases h
  | cons b t ih =>
      rw [List.dropWhile_cons]
      rcases List.mem_cons.mp h with rfl | ht
      · split
        · next hb => exact Or.inr hb
        · exact Or.inl (List.mem_cons_self _ _)
      · split
        · exact ih ht
        · exact Or.inl (List.mem_cons_of_mem _ ht)

theorem mem_trimAll_or {l : List Nat} {a : Nat} (h : a ∈ l) :
    a ∈ trimAll l ∨ isWS a = true := by
  rcases mem_dropWhile_or isWS h with h1 | h1
  · unfold trimAll List.rdropWhile
    rw [← List.mem_reverse] at h1
    rcases mem_dropWhile_or isWS h1 with h2 | h2
    · exact Or.inl (by simpa using h2)
    · exact Or.inr h2
  · exact Or.inr h1

theorem trimAll_subset {l : List Nat} {a : Nat} (h : a ∈ trimAll l) :
    a ∈ l := by
  unfold trimAll List.rdropWhile at h
  rw [List.mem_reverse] at h
  have h1 := (List.dropWhile_sublist _).subset h
  rw [List.mem_reverse] at h1
  exact (List.dropWhile_sublist _).subset h1

theorem dropWhile_eq_self_of_head {α} (p : α → Bool) (l : List α)
    (h : ∀ a ∈ l.head?, p a = false) : l.dropWhile p = l := by
  cases l with
  | nil => rfl
  | cons a t => rw [List.dropWhile_cons, h a rfl]; simp

theorem dropWhile_head?_false {α} (p : α → Bool) (l : List α) :
    ∀ a ∈ (l.dropWhile p).head?, p a = false := by
  induction l with
  | nil => intro a h; cases h
  | cons b t ih =>
      intro a h
      rw [List.dropWhile_cons] at h
      revert h
      split
      · exact fun h => ih a h
      · next hb => intro h; cases h; simpa using hb

theorem trimAll_eq_self {l : List Nat} (h : noWSEnds l) : trimAll l = l := by
  unfold trimAll List.rdropWhile
  rw [dropWhile_eq_self_of_head _ _ h.1, dropWhile_eq_self_of_head _ _ h.2,
      List.reverse_reverse]

theorem noWSEnds_trimAll (l : List Nat) : noWSEnds (trimAll l) := by
  constructor
  · intro a ha
    have hpre : trimAll l <+: l.dropWhile isWS := by
      unfold trimAll
      exact List.rdropWhile_prefix _ _
    obtain ⟨t, ht⟩ := hpre
    have : (l.dropWhile isWS).head? = some a := by
      rw [← ht]
      cases htr : trimAll l with
      | nil => rw [htr] at ha; cases ha
      | cons x xs =>
          rw [htr] at ha
          cases ha
          rfl
    exact dropWhile_head?_false isWS l a this
  · intro a ha
    have : (trimAll l).reverse = (l.dropWhile isWS).reverse.dropWhile isWS := by
      unfold trimAll List.rdropWhile
      rw [List.reverse_reverse]
    rw [this] at ha
    exact dropWhile_head?_false isWS _ a ha

theorem noWSEnds_of_wsMap_eq {l₁ l₂ : List Nat}
    (h : l₁.map isWS = l₂.map isWS) (h₂ : noWSEnds l₂) : noWSEnds l₁ := by
  constructor
  · intro a ha
    have h1 : (l₁.map isWS).head? = some (isWS a) := by
      rw [List.head?_map, ha]; rfl
    rw [h, List.head?_map] at h1
    obtain ⟨b, hb, hab⟩ := Option.map_eq_some'.mp h1
    rw [← hab]
    exact h₂.1 b hb
  · intro a ha
    have h1 : (l₁.map isWS).reverse.head? = some (isWS a) := by
      rw [← List.map_reverse, List.head?_map, ha]; rfl
    rw [h, ← List.map_reverse, List.head?_map] at h1
    obtain ⟨b, hb, hab⟩ := Option.map_eq_some'.mp h1
    rw [← hab]
    exact h₂.2 b hb

theorem replaceFirstUnderscore_wsMap (l : List Nat) :
    (replaceFirstUnderscore l).map isWS = l.map isWS := by
  induction l with
  | nil => rfl
  | cons a t ih =>
      unfold replaceFirstUnderscore
      split
      · next ha => subst ha; rfl
      · simpa using ih

theorem dashCaseFix_wsMap (l : List Nat) :
    (dashCaseFix l).map isWS = l.map isWS := by
  induction l with
  | nil => rfl
  | cons a t ih =>
      unfold dashCaseFix
      split
      · simp [List.map_map, Function.comp_def, isWS_toUpperByte]
      · simpa [isWS_toLowerByte] using ih

/-! Structure of `CorrectLanguageCodeTypo` output. -/

theorem mem_replaceFirstUnderscore {l : List Nat} {a : Nat}
    (h : a ∈ replaceFirstUnderscore l) : a = 45 ∨ a ∈ l := by
  induction l with
  | nil => cases h
  | cons b t ih =>
      unfold replaceFirstUnderscore at h
      revert h
      split
      · intro h
        rcases List.mem_cons.mp h with rfl | ht
        · exact Or.inl rfl
        · exact Or.inr (List.mem_cons_of_mem _ ht)
      · intro h
        rcases List.mem_cons.mp h with rfl | ht
        · exact Or.inr (List.mem_cons_self _ _)
        · rcases ih ht with h45 | hm
          · exact Or.inl h45
          · exact Or.inr (List.mem_cons_of_mem _ hm)

theorem mem_dashCaseFix {l : List Nat} {a : Nat} (h : a ∈ dashCaseFix l) :
    ∃ b ∈ l, a = toLowerByte b ∨ a = toUpperByte b := by
  induction l with
  | nil => cases h
  | cons c t ih =>
      unfold dashCaseFix at h
      revert h
      split
      · intro h
        obtain ⟨b, hb, hab⟩ := List.mem_map.mp h
        exact ⟨b, hb, Or.inr hab.symm⟩
      · intro h
        rcases List.mem_cons.mp h with rfl | ht
        · exact ⟨c, List.mem_cons_self _ _, Or.inl rfl⟩
        · obtain ⟨b, hb, hab⟩ := ih ht
          exact ⟨b, List.mem_cons_of_mem _ hb, hab⟩

theorem not_mem_44_correctTypo (l : List Nat) :
    44 ∉ CorrectLanguageCodeTypo l := by
  intro h
  obtain ⟨b, hb, hab⟩ := mem_dashCaseFix h
  have hb45 : b = 44 := by
    rcases hab with h1 | h1
    · exact ((toLowerByte_eq_iff b 44 (by omega) (by omega)).mp h1.symm)
    · exact ((toUpperByte_eq_iff b 44 (by omega) (by omega)).mp h1.symm)
  subst hb45
  rcases mem_replaceFirstUnderscore hb with h45 | hm
  · omega
  · have := List.mem_takeWhile_imp (trimAll_subset hm)
    simp at this

theorem truncateAtComma_eq_self {l : List Nat} (h : 44 ∉ l) :
    truncateAtComma l = l := by
  unfold truncateAtComma
  rw [List.takeWhile_eq_self_iff]
  intro a ha
  have : a ≠ 44 := fun hc => h (hc ▸ ha)
  simpa using this

theorem replaceFirstUnderscore_eq_self {l : List Nat} (h : 95 ∉ l) :
    replaceFirstUnderscore l = l := by
  induction l with
  | nil => rfl
  | cons a t ih =>
      unfold replaceFirstUnderscore
      rw [if_neg (fun ha => h (by rw [← ha]; exact List.mem_cons_self a t))]
      rw [ih (fun ht => h (List.mem_cons_of_mem _ ht))]

theorem toUpperByte_45 : toUpperByte 45 = 45 := rfl

theorem dashCaseFix_cons_dash (t : List Nat) :
    dashCaseFix (45 :: t) = 45 :: t.map toUpperByte := by
  unfold dashCaseFix
  rw [if_pos rfl, List.map_cons, toUpperByte_45]

theorem dashCaseFix_cons_of_ne (a : Nat) (t : List Nat) (ha : a ≠ 45) :
    dashCaseFix (a :: t) = toLowerByte a :: dashCaseFix t := by
  rw [dashCaseFix]
  rw [if_neg ha]

theorem dashCaseFix_idem (l : List Nat) :
    dashCaseFix (dashCaseFix l) = dashCaseFix l := by
  induction l with
  | nil => rfl
  | cons a t ih =>
      by_cases ha : a = 45
      · subst ha
        rw [dashCaseFix_cons_dash, dashCaseFix_cons_dash, List.map_map]
        congr 1
        exact List.map_congr_left fun b _ => toUpperByte_idem b
      · rw [dashCaseFix_cons_of_ne a t ha,
            dashCaseFix_cons_of_ne _ _ (fun hc =>
              ha ((toLowerByte_eq_iff a 45 (by omega) (by omega)).mp hc)),
            toLowerByte_idem, ih]

/-- `noWSEnds` holds of every `CorrectLanguageCodeTypo` output. -/
theorem noWSEnds_correctTypo (l : List Nat) :
    noWSEnds (CorrectLanguageCodeTypo l) := by
  unfold CorrectLanguageCodeTypo
  refine noWSEnds_of_wsMap_eq ?_
    (noWSEnds_trimAll (truncateAtComma l))
  rw [dashCaseFix_wsMap, replaceFirstUnderscore_wsMap]

/-- If the corrected code contains no underscore (which validity ensures),
`CorrectLanguageCodeTypo` is a fixpoint on its own output. -/
theorem correctTypo_fixpoint (l : List Nat)
    (h95 : 95 ∉ CorrectLanguageCodeTypo l) :
    CorrectLanguageCodeTypo (CorrectLanguageCodeTypo l) =
      CorrectLanguageCodeTypo l := by
  have key : ∀ v : List Nat, 44 ∉ v → noWSEnds v → 95 ∉ v →
      CorrectLanguageCodeTypo v = dashCaseFix v := by
    intro v hv44 hvws hv95
    unfold CorrectLanguageCodeTypo
    rw [truncateAtComma_eq_self hv44, trimAll_eq_self hvws,
        replaceFirstUnderscore_eq_self hv95]
  rw [key _ (not_mem_44_correctTypo l) (noWSEnds_correctTypo l) h95]
  unfold CorrectLanguageCodeTypo
  exact dashCaseFix_idem _

/-! Structure of `splitRaw` and `SplitString`. -/

theorem splitRaw_ne_nil (sep : Nat) (l : List Nat) : splitRaw sep l ≠ [] := by
  cases l with
  | nil => simp [splitRaw]
  | cons a t =>
      unfold splitRaw
      split
      · simp
      · split <;> simp

theorem splitRaw_cons_ne {sep a : Nat} (t : List Nat) (ha : a ≠ sep) :
    ∃ p ps, splitRaw sep t = p :: ps ∧
      splitRaw sep (a :: t) = (a :: p) :: ps := by
  cases hps : splitRaw sep t with
  | nil => exact absurd hps (splitRaw_ne_nil sep t)
  | cons p ps =>
      refine ⟨p, ps, rfl, ?_⟩
      rw [splitRaw, if_neg ha, hps]

theorem splitRaw_of_not_mem {sep : Nat} {l : List Nat} (h : sep ∉ l) :
    splitRaw sep l = [l] := by
  induction l with
  | nil => rfl
  | cons a t ih =>
      have ha : a ≠ sep := fun ha => h (by subst ha; exact List.mem_cons_self a t)
      obtain ⟨p, ps, hps, hcons⟩ := splitRaw_cons_ne t ha
      rw [hcons]
      rw [ih (fun ht => h (List.mem_cons_of_mem _ ht))] at hps
      cases hps
      rfl

theorem splitRaw_append_cons {sep : Nat} {A : List Nat} (B : List Nat)
    (h : sep ∉ A) : splitRaw sep (A ++ sep :: B) = A :: splitRaw sep B := by
  induction A with
  | nil =>
      simp only [List.nil_append]
      rw [splitRaw, if_pos rfl]
  | cons a t ih =>
      have ha : a ≠ sep := fun ha => h (by subst ha; exact List.mem_cons_self a t)
      simp only [List.cons_append]
      obtain ⟨p, ps, hps, hcons⟩ := splitRaw_cons_ne (t ++ sep :: B) ha
      rw [hcons]
      rw [ih (fun ht => h (List.mem_cons_of_mem _ ht))] at hps
      cases hps
      rfl

theorem splitRaw_length (sep : Nat) (l : List Nat) :
    (splitRaw sep l).length = l.countP (fun a => a == sep) + 1 := by
  induction l with
  | nil => rfl
  | cons a t ih =>
      rw [List.countP_cons]
      by_cases ha : a = sep
      · subst ha
        rw [splitRaw, if_pos rfl]
        simp [ih]
      · obtain ⟨p, ps, hps, hcons⟩ := splitRaw_cons_ne t ha
        rw [hcons]
        rw [hps] at ih
        have hbe : (a == sep) = false := by simpa using ha
        simp only [List.length_cons, hbe, Bool.false_eq_true, if_false]
          at ih ⊢
        omega

theorem mem_splitRaw {sep : Nat} {l : List Nat} {a : Nat} (h : a ∈ l) :
    a = sep ∨ ∃ p ∈ splitRaw sep l, a ∈ p := by
  induction l with
  | nil => cases h
  | cons b t ih =>
      by_cases hb : b = sep
      · rcases List.mem_cons.mp h with rfl | ht
        · exact Or.inl hb
        · rcases ih ht with h1 | ⟨p, hp, hap⟩
          · exact Or.inl h1
          · subst hb
            rw [splitRaw, if_pos rfl]
            exact Or.inr ⟨p, List.mem_cons_of_mem _ hp, hap⟩
      · obtain ⟨p, ps, hps, hcons⟩ := splitRaw_cons_ne t hb
        rw [hcons]
        rcases List.mem_cons.mp h with rfl | ht
        · exact Or.inr ⟨a :: p, List.mem_cons_self _ _, List.mem_cons_self _ _⟩
        · rcases ih ht with h1 | ⟨q, hq, haq⟩
          · exact Or.inl h1
          · rw [hps] at hq
            rcases List.mem_cons.mp hq with rfl | hq2
            · exact Or.inr ⟨b :: q, List.mem_cons_self _ _,
                List.mem_cons_of_mem _ haq⟩
            · exact Or.inr ⟨q, List.mem_cons_of_mem _ hq2, haq⟩

/-! Shape of valid language codes. -/

theorem dash_decomp {v : List Nat} (h45 : 45 ∈ v) :
    ∃ B, v = v.takeWhile (fun a => a != 45) ++ 45 :: B ∧
      45 ∉ v.takeWhile (fun a => a != 45) ∧
      v.dropWhile (fun a => a != 45) = 45 :: B := by
  have hd : ∃ B, v.dropWhile (fun a => a != 45) = 45 :: B := by
    induction v with
    | nil => cases h45
    | cons a t ih =>
        by_cases ha : a = 45
        · subst ha
          exact ⟨t, by rw [List.dropWhile_cons]; simp⟩
        · rw [List.dropWhile_cons]
          have hne : (a != 45) = true := by simpa using ha
          rw [hne]
          simp only [if_true]
          refine ih ?_
          rcases List.mem_cons.mp h45 with h1 | h1
          · exact absurd h1.symm ha
          · exact h1
  obtain ⟨B, hB⟩ := hd
  refine ⟨B, ?_, ?_, hB⟩
  · conv_lhs => rw [← List.takeWhile_append_dropWhile
      (p := fun a => a != 45) (l := v)]
    rw [hB]
  · intro hmem
    have := List.mem_takeWhile_imp hmem
    simp at this

theorem SplitString_no_dash {v : List Nat} (h45 : 45 ∉ v) :
    SplitString 45 v = if trimAll v = [] then [] else [trimAll v] := by
  unfold SplitString
  rw [splitRaw_of_not_mem h45]
  rfl

theorem valid_of_chunks_one {v m : List Nat} (hch : SplitString 45 v = [m])
    (hv : IsValidLanguageCode v = true) :
    m ≠ [] ∧ m.length ≤ 3 ∧ m.all IsAsciiAlpha = true := by
  unfold IsValidLanguageCode at hv
  rw [hch] at hv
  simp only [] at hv
  split_ifs at hv with h1 h2 h3 h4 h5
  all_goals try exact absurd h5 (by simp)
  all_goals refine ⟨?_, ?_, ?_⟩
  all_goals try (intro hm; exact h2 (Or.inl (by simp [hm])))
  all_goals try (simp only [List.headD_cons] at h2; omega)
  all_goals simpa using h3

theorem valid_of_chunks_two {v m s : List Nat}
    (hch : SplitString 45 v = [m, s]) (hv : IsValidLanguageCode v = true) :
    m ≠ [] ∧ m.length ≤ 3 ∧ m.all IsAsciiAlpha = true ∧
      s.length = 2 ∧ s.all IsAsciiAlpha = true := by
  unfold IsValidLanguageCode at hv
  rw [hch] at hv
  simp only [] at hv
  split_ifs at hv with h1 h2 h3 h4 h5
  all_goals try simp at h4
  all_goals refine ⟨?_, ?_, ?_, ?_, ?_⟩
  all_goals try (intro hm; exact h2 (Or.inl (by simp [hm])))
  all_goals try (simp only [List.headD_cons] at h2; omega)
  all_goals try (simpa using h3)
  all_goals try (simpa using h5)
  all_goals simpa using hv

/-- Structure of a valid code: either it is dash-free and its single
trimmed chunk is 1-3 ASCII letters, or it splits as `A ++ 45 :: B` with
dash-free `A` and `B` whose trimmed chunks are the 1-3 letter main code
and the 2-letter sub code. -/
theorem valid_shape {v : List Nat} (hv : IsValidLanguageCode v = true) :
    (45 ∉ v ∧ SplitString 45 v = [trimAll v] ∧ trimAll v ≠ [] ∧
       (trimAll v).length ≤ 3 ∧ (trimAll v).all IsAsciiAlpha = true) ∨
    (∃ B, v = v.takeWhile (fun a => a != 45) ++ 45 :: B ∧
       45 ∉ v.takeWhile (fun a => a != 45) ∧ 45 ∉ B ∧
       SplitString 45 v =
         [trimAll (v.takeWhile (fun a => a != 45)), trimAll B] ∧
       trimAll (v.takeWhile (fun a => a != 45)) ≠ [] ∧
       (trimAll (v.takeWhile (fun a => a != 45))).length ≤ 3 ∧
       (trimAll (v.takeWhile (fun a => a != 45))).all IsAsciiAlpha = true ∧
       (trimAll B).length = 2 ∧ (trimAll B).all IsAsciiAlpha = true) := by
  by_cases h45 : 45 ∈ v
  · right
    obtain ⟨B, hveq, hA45, _⟩ := dash_decomp h45
    set A := v.takeWhile (fun a => a != 45) with hA
    obtain ⟨q, qs, hqqs⟩ : ∃ q qs, splitRaw 45 B = q :: qs := by
      cases h : splitRaw 45 B with
      | nil => exact absurd h (splitRaw_ne_nil _ _)
      | cons q qs => exact ⟨q, qs, rfl⟩
    have hsp : SplitString 45 v =
        trimAll A :: trimAll q :: qs.map trimAll := by
      unfold SplitString
      rw [hveq, splitRaw_append_cons B hA45, hqqs]
      rfl
    have hqs : qs = [] := by
      cases qs with
      | nil => rfl
      | cons c cs =>
          exfalso
          unfold IsValidLanguageCode at hv
          rw [hsp] at hv
          simp only [] at hv
          rw [if_pos (Or.inr (by simp))] at hv
          exact absurd hv (by simp)
    subst hqs
    have hB45 : 45 ∉ B := by
      intro hmem
      have hlen := splitRaw_length 45 B
      rw [hqqs] at hlen
      have hpos : 0 < B.countP (fun a => a == 45) :=
        List.countP_pos_iff.mpr ⟨45, hmem, by simp⟩
      simp only [List.length_cons, List.length_nil] at hlen
      omega
    have hqB : q = B := by
      have hq1 := splitRaw_of_not_mem hB45
      rw [hqqs] at hq1
      cases hq1
      rfl
    subst hqB
    rw [List.map_nil] at hsp
    obtain ⟨hm1, hm2, hm3, hs1, hs2⟩ := valid_of_chunks_two hsp hv
    exact ⟨q, hveq, hA45, hB45, hsp, hm1, hm2, hm3, hs1, hs2⟩
  · left
    have hsp := SplitString_no_dash h45
    have htne : trimAll v ≠ [] := by
      intro htr
      rw [htr] at hsp
      rw [if_pos rfl] at hsp
      unfold IsValidLanguageCode at hv
      rw [hsp] at hv
      simp only [] at hv
      rw [if_pos (Or.inl (by simp))] at hv
      exact absurd hv (by simp)
    rw [if_neg htne] at hsp
    obtain ⟨hm1, hm2, hm3⟩ := valid_of_chunks_one hsp hv
    exact ⟨h45, hsp, hm1, hm2, hm3⟩

/-- Every byte of a valid code is a dash, ASCII whitespace, or an ASCII
letter. -/
theorem mem_class_of_valid {v : List Nat} (hv : IsValidLanguageCode v = true)
    {a : Nat} (ha : a ∈ v) :
    a = 45 ∨ isWS a = true ∨ IsAsciiAlpha a = true := by
  rcases valid_shape hv with ⟨h45, _, _, _, hall⟩ |
    ⟨B, hveq, _, _, _, _, _, hallA, _, hallB⟩
  · rcases mem_trimAll_or ha with h1 | h1
    · exact Or.inr (Or.inr (List.all_eq_true.mp hall a h1))
    · exact Or.inr (Or.inl h1)
  · rw [hveq] at ha
    rcases List.mem_append.mp ha with h1 | h1
    · rcases mem_trimAll_or h1 with h2 | h2
      · exact Or.inr (Or.inr (List.all_eq_true.mp hallA a h2))
      · exact Or.inr (Or.inl h2)
    · rcases List.mem_cons.mp h1 with rfl | h2
      · exact Or.inl rfl
      · rcases mem_trimAll_or h2 with h3 | h3
        · exact Or.inr (Or.inr (List.all_eq_true.mp hallB a h3))
        · exact Or.inr (Or.inl h3)

theorem not_mem_95_of_valid {v : List Nat}
    (hv : IsValidLanguageCode v = true) : 95 ∉ v := by
  intro h95
  rcases mem_class_of_valid hv h95 with h | h | h
  · omega
  · simp [isWS] at h
  · simp [IsAsciiAlpha] at h

/-- C6: `normalize` — typo correction followed by validation, an invalid
code becoming the empty string — is idempotent. -/
theorem normalizeCode_idempotent_c6 (l : List Nat) :
    normalizeCode (normalizeCode l) = normalizeCode l := by
  by_cases hv : IsValidLanguageCode (CorrectLanguageCodeTypo l) = true
  · have h1 : normalizeCode l = CorrectLanguageCodeTypo l := by
      unfold normalizeCode ApplyLanguageCodeCorrection
      simp [hv]
    rw [h1]
    have hfix := correctTypo_fixpoint l (not_mem_95_of_valid hv)
    unfold normalizeCode ApplyLanguageCodeCorrection
    simp [hfix, hv]
  · have h1 : normalizeCode l = [] := by
      unfold normalizeCode ApplyLanguageCodeCorrection
      simp [hv]
    rw [h1]
    decide

/-! Case structure of `dashCaseFix` output, for the shape claim. -/

theorem dashCaseFix_no_dash {l : List Nat} (h : 45 ∉ l) :
    dashCaseFix l = l.map toLowerByte := by
  induction l with
  | nil => rfl
  | cons a t ih =>
      have ha : a ≠ 45 := fun hc => h (by rw [← hc]; exact List.mem_cons_self a t)
      rw [dashCaseFix_cons_of_ne a t ha, List.map_cons,
          ih (fun ht => h (List.mem_cons_of_mem _ ht))]

theorem mem_45_dashCaseFix {l : List Nat} (h : 45 ∈ l) :
    45 ∈ dashCaseFix l := by
  induction l with
  | nil => cases h
  | cons a t ih =>
      by_cases ha : a = 45
      · subst ha
        rw [dashCaseFix_cons_dash]
        exact List.mem_cons_self _ _
      · rw [dashCaseFix_cons_of_ne a t ha]
        refine List.mem_cons_of_mem _ (ih ?_)
        rcases List.mem_cons.mp h with h1 | h1
        · exact absurd h1.symm ha
        · exact h1

theorem dashCaseFix_of_mem_45 {l : List Nat} (h : 45 ∈ l) :
    dashCaseFix l = (l.takeWhile (fun a => a != 45)).map toLowerByte ++
      (l.dropWhile (fun a => a != 45)).map toUpperByte := by
  induction l with
  | nil => cases h
  | cons a t ih =>
      by_cases ha : a = 45
      · subst ha
        rw [dashCaseFix_cons_dash, List.takeWhile_cons, List.dropWhile_cons]
        simp [toUpperByte_45]
      · have hp : (a != 45) = true := by simpa using ha
        have ht : 45 ∈ t := by
          rcases List.mem_cons.mp h with h1 | h1
          · exact absurd h1.symm ha
          · exact h1
        rw [dashCaseFix_cons_of_ne a t ha, List.takeWhile_cons,
            List.dropWhile_cons, hp, ih ht]
        simp

theorem dashCaseFix_split {w : List Nat} (h45 : 45 ∈ w) :
    ∃ T D : List Nat, 45 ∉ T ∧
      dashCaseFix w = T.map toLowerByte ++ 45 :: D.map toUpperByte := by
  obtain ⟨D, _, hT45, hdrop⟩ := dash_decomp h45
  refine ⟨w.takeWhile (fun a => a != 45), D, hT45, ?_⟩
  rw [dashCaseFix_of_mem_45 h45, hdrop, List.map_cons, toUpperByte_45]

theorem takeWhile_append_eq {p : Nat → Bool} {X : List Nat} (Y : List Nat)
    (b : Nat) (hX : ∀ a ∈ X, p a = true) (hb : p b = false) :
    (X ++ b :: Y).takeWhile p = X := by
  induction X with
  | nil => simp [List.takeWhile_cons, hb]
  | cons x xs ih =>
      rw [List.cons_append, List.takeWhile_cons,
          hX x (List.mem_cons_self _ _)]
      simp only [if_true]
      rw [ih (fun a ha => hX a (List.mem_cons_of_mem _ ha))]

/-- C7 amended: for every input, a non-empty normalized code splits (with
the source's whitespace-trimming chunk split on `'-'`) into a primary tag
of 1-3 lower-case ASCII letters and, when a region tag is present, exactly
2 upper-case ASCII letters.  (The claim's length bound 2-3 on the primary
tag is corrected to 1-3: the source accepts 1-letter main codes.) -/
theorem normalizeCode_shape_c7 (l : List Nat) (h : normalizeCode l ≠ []) :
    ∃ m, (1 ≤ m.length ∧ m.length ≤ 3 ∧ (∀ a ∈ m, 97 ≤ a ∧ a ≤ 122)) ∧
      (SplitString 45 (normalizeCode l) = [m] ∨
       ∃ s, SplitString 45 (normalizeCode l) = [m, s] ∧ s.length = 2 ∧
         (∀ a ∈ s, 65 ≤ a ∧ a ≤ 90)) := by
  have hv : IsValidLanguageCode (CorrectLanguageCodeTypo l) = true := by
    by_contra hv
    apply h
    unfold normalizeCode ApplyLanguageCodeCorrection
    simp [hv]
  have hn : normalizeCode l = CorrectLanguageCodeTypo l := by
    unfold normalizeCode ApplyLanguageCodeCorrection
    simp [hv]
  rw [hn]
  have hw : CorrectLanguageCodeTypo l =
      dashCaseFix (replaceFirstUnderscore (trimAll (truncateAtComma l))) :=
    rfl
  rcases valid_shape hv with ⟨h45, hsp, hne, hlen, hall⟩ |
    ⟨B, hveq, hA45, hB45, hsp, hne, hlenA, hallA, hlenB, hallB⟩
  · have h45w : 45 ∉ replaceFirstUnderscore (trimAll (truncateAtComma l)) :=
      fun hm => h45 (by rw [hw]; exact mem_45_dashCaseFix hm)
    have hvlow : CorrectLanguageCodeTypo l =
        (replaceFirstUnderscore (trimAll (truncateAtComma l))).map
          toLowerByte := by
      rw [hw, dashCaseFix_no_dash h45w]
    refine ⟨trimAll (CorrectLanguageCodeTypo l), ⟨?_, hlen, ?_⟩, Or.inl hsp⟩
    · have := List.length_pos.mpr hne
      omega
    · intro a ha
      have haalpha := List.all_eq_true.mp hall a ha
      have hav : a ∈ CorrectLanguageCodeTypo l := trimAll_subset ha
      rw [hvlow] at hav
      obtain ⟨b, _, hab⟩ := List.mem_map.mp hav
      have hnotup := toLowerByte_not_upper b
      rw [hab] at hnotup
      simp [IsAsciiAlpha] at haalpha
      omega
  · have h45v : 45 ∈ CorrectLanguageCodeTypo l := by
      rw [hveq]
      exact List.mem_append_right _ (List.mem_cons_self _ _)
    have h45w :
        45 ∈ replaceFirstUnderscore (trimAll (truncateAtComma l)) := by
      by_contra h45w
      rw [hw, dashCaseFix_no_dash h45w] at h45v
      obtain ⟨b, hb, hab⟩ := List.mem_map.mp h45v
      have hb45 : b = 45 :=
        (toLowerByte_eq_iff b 45 (by omega) (by omega)).mp hab
      rw [hb45] at hb
      exact h45w hb
    obtain ⟨T, D, hT45, hsplit⟩ := dashCaseFix_split h45w
    have hv2 : CorrectLanguageCodeTypo l =
        T.map toLowerByte ++ 45 :: D.map toUpperByte := by rw [hw, hsplit]
    have hAeq : (CorrectLanguageCodeTypo l).takeWhile (fun a => a != 45) =
        T.map toLowerByte := by
      rw [hv2]
      refine takeWhile_append_eq _ _ ?_ (by simp)
      intro a ha
      obtain ⟨b, hb, hab⟩ := List.mem_map.mp ha
      have hane : a ≠ 45 := by
        intro hc
        rw [hc] at hab
        have hb45 : b = 45 :=
          (toLowerByte_eq_iff b 45 (by omega) (by omega)).mp hab
        rw [hb45] at hb
        exact hT45 hb
      simpa using hane
    have hBeq : B = D.map toUpperByte := by
      have hcomb :
          (CorrectLanguageCodeTypo l).takeWhile (fun a => a != 45) ++
            45 :: B = T.map toLowerByte ++ 45 :: D.map toUpperByte := by
        rw [← hveq, hv2]
      rw [hAeq] at hcomb
      have := List.append_cancel_left hcomb
      simpa using this
    refine ⟨trimAll ((CorrectLanguageCodeTypo l).takeWhile
        (fun a => a != 45)),
      ⟨?_, hlenA, ?_⟩, Or.inr ⟨trimAll B, hsp, hlenB, ?_⟩⟩
    · have := List.length_pos.mpr hne
      omega
    · intro a ha
      have haalpha := List.all_eq_true.mp hallA a ha
      have haA := trimAll_subset ha
      rw [hAeq] at haA
      obtain ⟨b, _, hab⟩ := List.mem_map.mp haA
      have hnotup := toLowerByte_not_upper b
      rw [hab] at hnotup
      simp [IsAsciiAlpha] at haalpha
      omega
    · intro a ha
      have haalpha := List.all_eq_true.mp hallB a ha
      have haB := trimAll_subset ha
      rw [hBeq] at haB
      obtain ⟨b, _, hab⟩ := List.mem_map.mp haB
      have hnotlow := toUpperByte_not_lower b
      rw [hab] at hnotlow
      simp [IsAsciiAlpha] at haalpha
      omega

/-- C7 counterexample: `normalize "a" = "a"` is non-empty and its primary
tag `"a"` (byte 97) has length 1, not the claimed 2-3: the source's
validity check accepts main codes of 1 to 3 letters. -/
theorem normalizeCode_short_primary_c7 :
    normalizeCode (strBytes "a") = [97] ∧
    SplitString 45 (normalizeCode (strBytes "a")) = [[97]] ∧
    ([97] : List Nat).length < 2 := by decide

theorem normalizeCode_shape_c7_witness :
    normalizeCode (strBytes "en-us") ≠ [] ∧
    (∃ m, (1 ≤ m.length ∧ m.length ≤ 3 ∧ (∀ a ∈ m, 97 ≤ a ∧ a ≤ 122)) ∧
      (SplitString 45 (normalizeCode (strBytes "en-us")) = [m] ∨
       ∃ s, SplitString 45 (normalizeCode (strBytes "en-us")) = [m, s] ∧
         s.length = 2 ∧ (∀ a ∈ s, 65 ≤ a ∧ a ≤ 90))) :=
  ⟨by decide, normalizeCode_shape_c7 (strBytes "en-us") (by decide)⟩

/-- C9 counterexample: on declared `"bsq"` and classifier `"hr"` the
source predicate is true — `GetSimilarLanguageGroupCode` matches table
codes as prefixes, so `"bsq"` lands in group 1 — while the claim's
exact-key grouping of primary tags (and the prefix test) make it false. -/
theorem sameOrSimilar_prefix_group_c9 :
    IsSameOrSimilarLanguages (strBytes "bsq") (strBytes "hr") = true ∧
    specSameOrSimilarLanguages (strBytes "bsq") (strBytes "hr") = false := by
  decide

/-- C9 amended: the predicate holds exactly when the first two bytes of
the declared code are a prefix of the classifier code, or both codes map
to the same nonzero entry of the grouping table under the source's
prefix-based lookup (`"bs"`, `"hr"` → 1, `"hi"`, `"ne"` → 2, matching by
prefix of the whole code rather than by exact primary tag); in particular
`IsSameOrSimilar("bs","hr")` is true and `IsSameOrSimilar("en","fr")` is
false. -/
theorem isSameOrSimilar_characterization_c9 :
    (∀ page cld : List Nat,
      IsSameOrSimilarLanguages page cld = true ↔
        ((2 ≤ page.length ∧ cld.take 2 = page.take 2) ∨
         (GetSimilarLanguageGroupCode page ≠ 0 ∧
          GetSimilarLanguageGroupCode page =
            GetSimilarLanguageGroupCode cld))) ∧
    IsSameOrSimilarLanguages (strBytes "bs") (strBytes "hr") = true ∧
    IsSameOrSimilarLanguages (strBytes "en") (strBytes "fr") = false := by
  refine ⟨?_, by decide, by decide⟩
  intro page cld
  unfold IsSameOrSimilarLanguages
  by_cases h2 : 2 ≤ page.length
  · have hlen : (page.take 2).length = 2 := by
      rw [List.length_take]
      omega
    by_cases hst : startsWith (page.take 2) cld = true
    · rw [if_pos ⟨h2, hst⟩]
      simp only [true_iff]
      refine Or.inl ⟨h2, ?_⟩
      unfold startsWith at hst
      rw [hlen] at hst
      exact of_decide_eq_true hst
    · rw [if_neg (fun hc => hst hc.2)]
      constructor
      · intro hg
        exact Or.inr (of_decide_eq_true hg)
      · intro hrhs
        rcases hrhs with ⟨_, htake⟩ | hg
        · exfalso
          apply hst
          unfold startsWith
          rw [hlen]
          exact decide_eq_true htake
        · exact decide_eq_true hg
  · rw [if_neg (fun hc => h2 hc.1)]
    constructor
    · intro hg
      exact Or.inr (of_decide_eq_true hg)
    · intro hrhs
      rcases hrhs with ⟨h2', _⟩ | hg
      · exact absurd h2' h2
      · exact decide_eq_true hg

/-- C8: whenever the adopted declared code is non-empty and starts with
`"en"` case-insensitively, the classifier verdict is trusted (after the
synonym table it is not the `"und"` sentinel), the `zh` sub-code
complement case does not apply, the two codes are not same-or-similar,
and the classifier code is in the fixed well-known confusable table, the
resolution returns the classifier code with the trust-CLD (suspected
server misconfiguration) outcome. -/
theorem determinePageLanguage_trust_cld_c8 (syn : List Nat → List Nat)
    (code html_lang : List Nat) (detected : Option (List Nat))
    (is_reliable : Bool) (text_bytes : Nat)
    (hne : adoptedLanguage syn code html_lang ≠ [])
    (hen : startsWithCaseInsensitive (adoptedLanguage syn code html_lang)
      [101, 110] = true)
    (hcld : syn (DetermineTextLanguage detected is_reliable text_bytes)
      ≠ und)
    (hcomp : CanCLDComplementSubCode (adoptedLanguage syn code html_lang)
      (syn (DetermineTextLanguage detected is_reliable text_bytes)) = false)
    (hsim : IsSameOrSimilarLanguages (adoptedLanguage syn code html_lang)
      (syn (DetermineTextLanguage detected is_reliable text_bytes)) = false)
    (hwell : syn (DetermineTextLanguage detected is_reliable text_bytes)
      ∈ kWellKnownCodesOnWrongConfiguration) :
    DeterminePageLanguage syn code html_lang detected is_reliable
        text_bytes =
      (syn (DetermineTextLanguage detected is_reliable text_bytes),
       LanguageVerification.trustCld) := by
  unfold DeterminePageLanguage
  rw [if_neg hne, if_neg hcld, if_neg (by rw [hcomp]; simp),
      if_neg (by rw [hsim]; simp)]
  rw [if_pos ?_]
  unfold MaybeServerWrongConfiguration
  rw [if_neg (by rw [hen]; simp)]
  exact decide_eq_true hwell

theorem determinePageLanguage_trust_cld_c8_witness :
    adoptedLanguage id (strBytes "en") [] ≠ [] ∧
    startsWithCaseInsensitive (adoptedLanguage id (strBytes "en") [])
      [101, 110] = true ∧
    id (DetermineTextLanguage (some (strBytes "es")) true 150) ≠ und ∧
    CanCLDComplementSubCode (adoptedLanguage id (strBytes "en") [])
      (id (DetermineTextLanguage (some (strBytes "es")) true 150))
      = false ∧
    IsSameOrSimilarLanguages (adoptedLanguage id (strBytes "en") [])
      (id (DetermineTextLanguage (some (strBytes "es")) true 150))
      = false ∧
    id (DetermineTextLanguage (some (strBytes "es")) true 150)
      ∈ kWellKnownCodesOnWrongConfiguration ∧
    DeterminePageLanguage id (strBytes "en") []
        (some (strBytes "es")) true 150 =
      (strBytes "es", LanguageVerification.trustCld) :=
  ⟨by decide, by decide, by decide, by decide, by decide, by decide,
    determinePageLanguage_trust_cld_c8 id (strBytes "en") []
      (some (strBytes "es")) true 150 (by decide) (by decide) (by decide)
      (by decide) (by decide) (by decide)⟩
